import Mathlib

/-!
Verification of the submission/polling facade in src/api.py.

The embedding models:
- the module-level dict active_tasks as an insertion-ordered association
  list from query id to a task record with fields status and result;
- the endpoint create_query (POST /query), the background coroutine
  run_agent, the endpoint get_result (GET /result/query_id), the endpoint
  reset_workspace (POST /reset_workspace) and the helper
  get_directory_tree used by GET /workspace_info;
- the FastAPI background-task queue as an explicit list of scheduled
  (query_id, query_text) pairs, consumed by a step relation;
- the outcome of the external agent call as an Except value (ok result or
  raised exception message), and the optional ANTHROPIC_API_KEY
  environment variable as an Option String.
-/

namespace Api

/-- A task record, mirroring the dicts stored in active_tasks in
src/api.py: status is one of the literal strings written by the code and
result is None while processing. -/
structure TaskRecord where
  status : String
  result : Option String
deriving DecidableEq, Repr

/-- The active_tasks registry: an insertion-ordered association list,
mirroring a Python dict from query id strings to task records. -/
abbrev Registry := List (String × TaskRecord)

/-- Dict lookup: active_tasks.get(query_id). -/
def lookupTask : Registry → String → Option TaskRecord
  | [], _ => none
  | (k, v) :: rest, qid => if k = qid then some v else lookupTask rest qid

/-- Dict assignment active_tasks[query_id] = record: overwrites in place
when the key is present, otherwise appends at the end, as a Python dict
does. -/
def setTask : Registry → String → TaskRecord → Registry
  | [], qid, r => [(qid, r)]
  | (k, v) :: rest, qid, r =>
      if k = qid then (k, r) :: rest else (k, v) :: setTask rest qid r

/-- The truthiness test if not api_key in run_agent: os.getenv returns
None when the variable is unset, and an empty string is also falsy. -/
def isMissingKey : Option String → Bool
  | none => true
  | some s => s.isEmpty

/-- The background coroutine run_agent of src/api.py, lines 88-118.
The api_key argument models os.getenv("ANTHROPIC_API_KEY"); the agent
argument models the awaited agent_query() call, which either returns a
result string or raises an exception carrying a message. Every branch
performs a single dict assignment at query_id. -/
def run_agent (tasks : Registry) (query_id : String) (api_key : Option String)
    (agent : Except String String) : Registry :=
  if isMissingKey api_key then
    setTask tasks query_id
      { status := "error", result := some "Error: ANTHROPIC_API_KEY not found in .env file" }
  else
    match agent with
    | Except.ok result => setTask tasks query_id { status := "completed", result := some result }
    | Except.error e => setTask tasks query_id { status := "error", result := some ("Error: " ++ e) }

/-- The JSON body of the POST /query response. -/
structure SubmitResponse where
  query_id : String
  status : String
deriving DecidableEq, Repr

/-- Result of the create_query endpoint: the updated registry, the
background task scheduled via background_tasks.add_task (a pair of
query id and query text), and the returned JSON body. -/
structure SubmitOutcome where
  tasks : Registry
  scheduled : String × String
  response : SubmitResponse
deriving Repr

/-- The fresh identifier generated in create_query:
the f-string query_ followed by len(active_tasks) + 1. -/
def freshQueryId (tasks : Registry) : String :=
  "query_" ++ Nat.repr (tasks.length + 1)

/-- The endpoint create_query of src/api.py, lines 120-128: generate the
identifier, insert the processing record, schedule run_agent in the
background, return the identifier with status processing. -/
def create_query (tasks : Registry) (text : String) : SubmitOutcome :=
  let query_id := freshQueryId tasks
  let tasks' := setTask tasks query_id { status := "processing", result := none }
  { tasks := tasks'
    scheduled := (query_id, text)
    response := { query_id := query_id, status := "processing" } }

/-- A JSON scalar value appearing in the /result response body. -/
inductive JsonVal where
  | null
  | str (s : String)
deriving DecidableEq, Repr

/-- A flat JSON object, as a list of key-value pairs in insertion
order, mirroring how FastAPI serialises a Python dict. -/
abbrev JsonObj := List (String × JsonVal)

/-- Serialisation of an optional string field. -/
def optJson : Option String → JsonVal
  | none => JsonVal.null
  | some s => JsonVal.str s

/-- Serialisation of a task record dict: the code always builds these
dicts with the status key first and the result key second. -/
def recordJson (r : TaskRecord) : JsonObj :=
  [("status", JsonVal.str r.status), ("result", optJson r.result)]

/-- The endpoint get_result of src/api.py, lines 130-135: an unknown
identifier yields the literal dict with a single status key, and a known
identifier yields the stored record. -/
def get_result (tasks : Registry) (query_id : String) : JsonObj :=
  match lookupTask tasks query_id with
  | none => [("status", JsonVal.str "not_found")]
  | some r => recordJson r

/-! ### Basic association-list lemmas -/

theorem lookupTask_setTask_self (tasks : Registry) (k : String) (r : TaskRecord) :
    lookupTask (setTask tasks k r) k = some r := by
  induction tasks with
  | nil => simp [setTask, lookupTask]
  | cons p rest ih =>
    by_cases h : p.1 = k
    · simp [setTask, lookupTask, h]
    · simp [setTask, lookupTask, h, ih]

theorem lookupTask_setTask_ne (tasks : Registry) (k k' : String) (r : TaskRecord)
    (h : k' ≠ k) : lookupTask (setTask tasks k r) k' = lookupTask tasks k' := by
  have hk : ¬ k = k' := fun he => h he.symm
  induction tasks with
  | nil => simp [setTask, lookupTask, hk]
  | cons p rest ih =>
    obtain ⟨pk, pv⟩ := p
    by_cases hp : pk = k
    · subst hp
      simp [setTask, lookupTask, hk]
    · by_cases hp' : pk = k'
      · simp [setTask, lookupTask, hp, hp', h]
      · simp [setTask, lookupTask, hp, hp', ih]

theorem lookupTask_eq_none_iff (tasks : Registry) (k : String) :
    lookupTask tasks k = none ↔ k ∉ tasks.map Prod.fst := by
  induction tasks with
  | nil => simp [lookupTask]
  | cons p rest ih =>
    obtain ⟨pk, pv⟩ := p
    by_cases h : pk = k
    · subst h
      simp [lookupTask]
    · rw [List.map_cons, List.mem_cons]
      simp only [lookupTask, h, if_false]
      rw [ih]
      constructor
      · intro hnk hor
        rcases hor with he | hm
        · exact h he.symm
        · exact hnk hm
      · intro hcon hm
        exact hcon (Or.inr hm)

theorem setTask_of_lookup_none (tasks : Registry) (k : String) (r : TaskRecord)
    (h : lookupTask tasks k = none) : setTask tasks k r = tasks ++ [(k, r)] := by
  induction tasks with
  | nil => simp [setTask]
  | cons p rest ih =>
    obtain ⟨pk, pv⟩ := p
    by_cases hp : pk = k
    · simp [lookupTask, hp] at h
    · simp only [lookupTask, hp, if_false] at h
      simp [setTask, hp, ih h]

theorem map_fst_setTask_of_mem (tasks : Registry) (k : String) (r : TaskRecord)
    (h : k ∈ tasks.map Prod.fst) :
    (setTask tasks k r).map Prod.fst = tasks.map Prod.fst := by
  induction tasks with
  | nil => simp at h
  | cons p rest ih =>
    obtain ⟨pk, pv⟩ := p
    by_cases hp : pk = k
    · simp [setTask, hp]
    · rw [List.map_cons] at h
      rcases List.mem_cons.mp h with he | hm
      · exact absurd he.symm hp
      · simp [setTask, hp, ih hm]

theorem length_setTask_of_mem (tasks : Registry) (k : String) (r : TaskRecord)
    (h : k ∈ tasks.map Prod.fst) : (setTask tasks k r).length = tasks.length := by
  have := map_fst_setTask_of_mem tasks k r h
  calc (setTask tasks k r).length = ((setTask tasks k r).map Prod.fst).length := by simp
    _ = (tasks.map Prod.fst).length := by rw [this]
    _ = tasks.length := by simp

theorem mem_of_lookupTask_some {tasks : Registry} {k : String} {r : TaskRecord}
    (h : lookupTask tasks k = some r) : k ∈ tasks.map Prod.fst := by
  by_contra hmem
  rw [← lookupTask_eq_none_iff] at hmem
  rw [hmem] at h
  exact Option.noConfusion h

/-! ### Injectivity of the decimal representation

Needed to show that the identifier query_ followed by
len(active_tasks) + 1 never collides with a previously issued
identifier. Nat.repr is defined through Nat.toDigitsCore; we relate it
to a fuel-free digit-list function and read the number back. -/

/-- Fuel-free decimal digit list, most significant first. -/
def digChars (n : Nat) : List Char :=
  if h : n / 10 = 0 then [Nat.digitChar (n % 10)]
  else digChars (n / 10) ++ [Nat.digitChar (n % 10)]
termination_by n
decreasing_by
  have hn : n ≠ 0 := by
    intro h0
    subst h0
    simp at h
  exact Nat.div_lt_self (Nat.pos_of_ne_zero hn) (by decide)

/-- Reads a decimal digit character back to its value. -/
def digVal (c : Char) : Nat := c.toNat - 48

/-- Reads a digit list back to a number. -/
def digsVal (l : List Char) : Nat := l.foldl (fun a c => a * 10 + digVal c) 0

theorem digVal_digitChar (d : Nat) (h : d < 10) : digVal (Nat.digitChar d) = d := by
  interval_cases d <;> decide

theorem digsVal_append_digit (l : List Char) (c : Char) :
    digsVal (l ++ [c]) = digsVal l * 10 + digVal c := by
  simp [digsVal, List.foldl_append]

theorem digsVal_digChars (n : Nat) : digsVal (digChars n) = n := by
  induction n using Nat.strong_induction_on with
  | _ n ih =>
    by_cases h : n / 10 = 0
    · have hlt : n % 10 < 10 := Nat.mod_lt n (by decide)
      rw [digChars, dif_pos h]
      simp [digsVal, digVal_digitChar (n % 10) hlt]
      omega
    · have hn : n ≠ 0 := fun h0 => by simp [h0] at h
      have hdec : n / 10 < n := Nat.div_lt_self (Nat.pos_of_ne_zero hn) (by decide)
      rw [digChars, dif_neg h, digsVal_append_digit, ih (n / 10) hdec,
        digVal_digitChar (n % 10) (Nat.mod_lt n (by decide))]
      omega

theorem digChars_step (n : Nat) (h : ¬ n / 10 = 0) :
    digChars n = digChars (n / 10) ++ [Nat.digitChar (n % 10)] := by
  rw [digChars, dif_neg h]

theorem toDigitsCore_eq_digChars (fuel n : Nat) (ds : List Char) (h : n < fuel) :
    Nat.toDigitsCore 10 fuel n ds = digChars n ++ ds := by
  induction fuel generalizing n ds with
  | zero => omega
  | succ fuel ih =>
    by_cases hd : n / 10 = 0
    · rw [Nat.toDigitsCore]
      simp only [hd, if_pos]
      rw [digChars, dif_pos hd]
      simp
    · have hn : n ≠ 0 := by
        intro h0; subst h0; simp at hd
      have hdec : n / 10 < n := Nat.div_lt_self (Nat.pos_of_ne_zero hn) (by decide)
      rw [Nat.toDigitsCore]
      simp only [hd, if_neg]
      rw [ih (n / 10) (Nat.digitChar (n % 10) :: ds) (by omega),
        digChars_step n hd, List.append_assoc]
      simp

theorem repr_eq_digChars (n : Nat) : Nat.repr n = (digChars n).asString := by
  show (Nat.toDigits 10 n).asString = (digChars n).asString
  rw [Nat.toDigits, toDigitsCore_eq_digChars (n + 1) n [] (by omega)]
  simp

theorem repr_injective {m n : Nat} (h : Nat.repr m = Nat.repr n) : m = n := by
  rw [repr_eq_digChars, repr_eq_digChars, List.asString_inj] at h
  have := congrArg digsVal h
  rwa [digsVal_digChars, digsVal_digChars] at this

theorem string_eq_of_data_eq {s t : String} (h : s.data = t.data) : s = t :=
  String.ext h

theorem append_left_cancel_str {a b c : String} (h : a ++ b = a ++ c) : b = c := by
  apply string_eq_of_data_eq
  have hd := congrArg String.data h
  rw [String.data_append, String.data_append] at hd
  exact List.append_cancel_left hd

theorem freshQueryId_injective_shift {m n : Nat}
    (h : ("query_" ++ Nat.repr (m + 1)) = ("query_" ++ Nat.repr (n + 1))) : m = n := by
  have := repr_injective (append_left_cancel_str h)
  omega

/-! ### Filesystem model for the workspace endpoints

A directory is a list of entries in listing order; os.listdir returns
the entries of one directory in an unspecified order and never returns
duplicate names. -/

/-- One filesystem entry inside the workspace: a file or a directory
with its own entries. -/
inductive FsEntry where
  | file (name : String)
  | dir (name : String) (children : List FsEntry)
deriving Repr

def FsEntry.name : FsEntry → String
  | .file n => n
  | .dir n _ => n

/-- The comparison used by sorted(os.listdir(path)): Python sorts the
returned names lexicographically by code point, which is the order of
Lean strings. -/
def entryLE (a b : FsEntry) : Prop := a.name ≤ b.name

instance : DecidableRel entryLE := fun a b =>
  inferInstanceAs (Decidable (a.name ≤ b.name))

instance : IsTotal FsEntry entryLE := ⟨fun a b => le_total a.name b.name⟩

instance : IsTrans FsEntry entryLE := ⟨fun _ _ _ hab hbc => le_trans hab hbc⟩

/-- One node of the JSON file tree returned by GET /workspace_info:
the code builds a dict with keys name, path and type for a file, and
additionally a children key for a directory; the two constructors
mirror the two dict shapes. -/
inductive TreeNode where
  | fileNode (name path : String)
  | dirNode (name path : String) (children : List TreeNode)
deriving Repr

def TreeNode.name : TreeNode → String
  | .fileNode n _ => n
  | .dirNode n _ _ => n

def TreeNode.path : TreeNode → String
  | .fileNode _ p => p
  | .dirNode _ p _ => p

/-- The keys of the dict built for a node, in insertion order. -/
def TreeNode.jsonKeys : TreeNode → List String
  | .fileNode _ _ => ["name", "path", "type"]
  | .dirNode _ _ _ => ["name", "path", "type", "children"]

/-- The relative-path computation of get_directory_tree: item_rel_path
is os.path.join(rel_path, item) when rel_path is nonempty (which on the
posix paths produced here is rel_path, a slash and item) and just item
at the top level. -/
def joinPath (rel_path item : String) : String :=
  if rel_path.isEmpty then item else rel_path ++ "/" ++ item

theorem sizeOf_perm {α} [SizeOf α] {l₁ l₂ : List α} (h : l₁.Perm l₂) :
    sizeOf l₁ = sizeOf l₂ := by
  induction h with
  | nil => rfl
  | cons a _ ih => simp [ih]
  | swap a b l => simp; omega
  | trans _ _ ih₁ ih₂ => omega

theorem sizeOf_insertionSort (l : List FsEntry) :
    sizeOf (List.insertionSort entryLE l) = sizeOf l :=
  sizeOf_perm (List.perm_insertionSort entryLE l)

mutual

/-- The helper get_directory_tree of src/api.py, lines 143-169: list
the entries, sort them by name, and build one dict per entry, recursing
into subdirectories with the extended relative path. List.insertionSort
models Python sorted(): both are stable sorts, so they agree on every
input. -/
def get_directory_tree (entries : List FsEntry) (rel_path : String) : List TreeNode :=
  buildNodes (List.insertionSort entryLE entries) rel_path
termination_by (sizeOf entries, 1)
decreasing_by
  rw [← sizeOf_insertionSort entries]
  exact Prod.Lex.right _ (by omega)

/-- The body of the for-loop of get_directory_tree, iterating over the
already-sorted entries in order. -/
def buildNodes (items : List FsEntry) (rel_path : String) : List TreeNode :=
  match items with
  | [] => []
  | FsEntry.file item :: rest =>
      TreeNode.fileNode item (joinPath rel_path item) :: buildNodes rest rel_path
  | FsEntry.dir item children :: rest =>
      TreeNode.dirNode item (joinPath rel_path item)
        (get_directory_tree children (joinPath rel_path item)) :: buildNodes rest rel_path
termination_by (sizeOf items, 0)
decreasing_by
  all_goals apply Prod.Lex.left
  all_goals simp
  all_goals omega

end

/-- The JSON body of the POST /reset_workspace response. -/
structure ResetResponse where
  status : String
  message : String
deriving DecidableEq, Repr

/-- The string form of the WORKSPACE_DIR path interpolated into the
success message; its concrete value depends on where the module file
lives, which no claim depends on. -/
def WORKSPACE_DIR_STR : String := "agent_workspace"

/-- The endpoint reset_workspace of src/api.py, lines 182-191. The
workspace argument is the current state of the directory (none when it
is absent); the exc argument models an exception raised by shutil.rmtree
or os.makedirs, carrying its message. Without an exception the directory
is deleted and recreated, hence exists and is empty; the except branch
returns the error dict instead of raising. -/
def reset_workspace (workspace : Option (List FsEntry)) (exc : Option String) :
    Option (List FsEntry) × ResetResponse :=
  match exc with
  | some e => (workspace, { status := "error", message := "Error resetting workspace: " ++ e })
  | none =>
      (some [], { status := "success",
                  message := "Workspace at " ++ WORKSPACE_DIR_STR ++ " has been reset" })

/-! ### The server state and its step relation -/

/-- The whole in-process state of the server: the active_tasks registry,
the queue of scheduled but not yet executed background tasks, and the
workspace directory. -/
structure ApiState where
  tasks : Registry
  pending : List (String × String)
  workspace : Option (List FsEntry)

/-- The reset_workspace endpoint acting on the whole server state: it
only touches the workspace directory, since the function body never
mentions active_tasks. -/
def reset_endpoint (s : ApiState) (exc : Option String) : ApiState × ResetResponse :=
  let r := reset_workspace s.workspace exc
  ({ tasks := s.tasks, pending := s.pending, workspace := r.1 }, r.2)

/-- One transition of the server: a POST /query call, the execution of
one scheduled background task (FastAPI runs each scheduled task exactly
once), or a POST /reset_workspace call. The GET endpoints do not change
the state. -/
inductive Step : ApiState → ApiState → Prop where
  | submit (s : ApiState) (text : String) :
      Step s { tasks := (create_query s.tasks text).tasks,
               pending := s.pending ++ [(create_query s.tasks text).scheduled],
               workspace := s.workspace }
  | runPending (s : ApiState) (qid text : String) (api_key : Option String)
      (agent : Except String String) (h : (qid, text) ∈ s.pending) :
      Step s { tasks := run_agent s.tasks qid api_key agent,
               pending := s.pending.erase (qid, text),
               workspace := s.workspace }
  | reset (s : ApiState) (exc : Option String) :
      Step s (reset_endpoint s exc).1

/-- States reachable from server startup: the registry starts empty, no
background task is scheduled, and os.makedirs with exist_ok has ensured
the workspace directory exists (with whatever content it already had). -/
inductive Reachable : ApiState → Prop where
  | init (ws : List FsEntry) : Reachable { tasks := [], pending := [], workspace := some ws }
  | step {s s' : ApiState} : Reachable s → Step s s' → Reachable s'

/-! ### The registry invariant along reachable states -/

/-- The registry keys are exactly query_1 up to query_n in insertion
order, where n is the registry size. -/
def goodKeys (tasks : Registry) : Prop :=
  tasks.map Prod.fst = (List.range tasks.length).map (fun i => "query_" ++ Nat.repr (i + 1))

/-- Invariant of reachable server states. -/
structure Inv (s : ApiState) : Prop where
  keys : goodKeys s.tasks
  pendingMem : ∀ p ∈ s.pending,
      lookupTask s.tasks p.1 = some { status := "processing", result := none }
  pendingNodup : (s.pending.map Prod.fst).Nodup
  statusRange : ∀ k r, lookupTask s.tasks k = some r →
      (r.status = "processing" ∧ r.result = none) ∨
      ((r.status = "completed" ∨ r.status = "error") ∧ ∃ v, r.result = some v)

theorem create_query_tasks_eq (tasks : Registry) (text : String) :
    (create_query tasks text).tasks
      = setTask tasks (freshQueryId tasks) { status := "processing", result := none } := rfl

theorem create_query_response_id (tasks : Registry) (text : String) :
    (create_query tasks text).response.query_id = freshQueryId tasks := rfl

theorem create_query_scheduled_eq (tasks : Registry) (text : String) :
    (create_query tasks text).scheduled = (freshQueryId tasks, text) := rfl

theorem freshQueryId_not_mem {tasks : Registry} (h : goodKeys tasks) :
    freshQueryId tasks ∉ tasks.map Prod.fst := by
  have h' : tasks.map Prod.fst
      = (List.range tasks.length).map (fun i => "query_" ++ Nat.repr (i + 1)) := h
  rw [h']
  intro hmem
  rcases List.mem_map.mp hmem with ⟨i, hi, hei⟩
  have : i = tasks.length := freshQueryId_injective_shift hei
  have := List.mem_range.mp hi
  omega

theorem lookupTask_fresh_none {tasks : Registry} (h : goodKeys tasks) :
    lookupTask tasks (freshQueryId tasks) = none :=
  (lookupTask_eq_none_iff tasks (freshQueryId tasks)).mpr (freshQueryId_not_mem h)

theorem goodKeys_create {tasks : Registry} (text : String) (h : goodKeys tasks) :
    goodKeys (create_query tasks text).tasks := by
  have h' : tasks.map Prod.fst
      = (List.range tasks.length).map (fun i => "query_" ++ Nat.repr (i + 1)) := h
  have happ : (create_query tasks text).tasks = tasks ++ [(freshQueryId tasks,
      { status := "processing", result := none })] := by
    rw [create_query_tasks_eq]
    exact setTask_of_lookup_none tasks _ _ (lookupTask_fresh_none h)
  show (create_query tasks text).tasks.map Prod.fst
      = (List.range (create_query tasks text).tasks.length).map
          (fun i => "query_" ++ Nat.repr (i + 1))
  rw [happ]
  simp only [List.map_append, List.length_append, List.map_cons, List.map_nil,
    List.length_cons, List.length_nil]
  rw [h', List.range_succ, List.map_append]
  simp [freshQueryId]

theorem run_agent_eq_setTask (tasks : Registry) (qid : String) (api_key : Option String)
    (agent : Except String String) :
    ∃ r' : TaskRecord, run_agent tasks qid api_key agent = setTask tasks qid r'
      ∧ (r'.status = "completed" ∨ r'.status = "error") ∧ ∃ v, r'.result = some v := by
  unfold run_agent
  by_cases h : isMissingKey api_key = true
  · rw [if_pos h]
    exact ⟨_, rfl, Or.inr rfl, _, rfl⟩
  · rw [if_neg h]
    cases agent with
    | ok res => exact ⟨_, rfl, Or.inl rfl, _, rfl⟩
    | error e => exact ⟨_, rfl, Or.inr rfl, _, rfl⟩

theorem inv_init (ws : List FsEntry) :
    Inv { tasks := [], pending := [], workspace := some ws } := by
  refine ⟨?_, ?_, ?_, ?_⟩
  · show ([] : Registry).map Prod.fst = _
    simp
  · intro p hp
    simp at hp
  · simp
  · intro k r hk
    simp [lookupTask] at hk

theorem inv_step {s s' : ApiState} (hinv : Inv s) (hs : Step s s') : Inv s' := by
  cases hs with
  | submit text =>
    have hfresh := freshQueryId_not_mem hinv.keys
    have hlookf := lookupTask_fresh_none hinv.keys
    refine ⟨goodKeys_create text hinv.keys, ?_, ?_, ?_⟩
    · intro p hp
      rcases List.mem_append.mp hp with hold | hnew
      · have hne : p.1 ≠ freshQueryId s.tasks := by
          intro he
          exact hfresh (he ▸ mem_of_lookupTask_some (hinv.pendingMem p hold))
        show lookupTask (create_query s.tasks text).tasks p.1 = _
        rw [create_query_tasks_eq, lookupTask_setTask_ne _ _ _ _ hne]
        exact hinv.pendingMem p hold
      · rcases List.mem_singleton.mp hnew with rfl
        show lookupTask (create_query s.tasks text).tasks
            (create_query s.tasks text).scheduled.1 = _
        rw [create_query_tasks_eq, create_query_scheduled_eq]
        exact lookupTask_setTask_self _ _ _
    · show ((s.pending ++ [(create_query s.tasks text).scheduled]).map Prod.fst).Nodup
      rw [create_query_scheduled_eq, List.map_append]
      simp only [List.map_cons, List.map_nil]
      rw [List.nodup_append]
      refine ⟨hinv.pendingNodup, List.nodup_singleton _, ?_⟩
      intro a ha hb
      rcases List.mem_singleton.mp hb with rfl
      rcases List.mem_map.mp ha with ⟨p, hp, hpe⟩
      exact hfresh (hpe ▸ mem_of_lookupTask_some (hinv.pendingMem p hp))
    · intro k r hk
      by_cases hke : k = freshQueryId s.tasks
      · subst hke
        rw [create_query_tasks_eq, lookupTask_setTask_self] at hk
        rcases Option.some.injEq _ _ ▸ hk with rfl
        exact Or.inl ⟨rfl, rfl⟩
      · rw [create_query_tasks_eq, lookupTask_setTask_ne _ _ _ _ hke] at hk
        exact hinv.statusRange k r hk
  | runPending qid text api_key agent hmem =>
    obtain ⟨r', heq, hstat, v, hres⟩ := run_agent_eq_setTask s.tasks qid api_key agent
    have hqidlook := hinv.pendingMem (qid, text) hmem
    have hqidmem : qid ∈ s.tasks.map Prod.fst := mem_of_lookupTask_some hqidlook
    have hpnodup : s.pending.Nodup := hinv.pendingNodup.of_map
    refine ⟨?_, ?_, ?_, ?_⟩
    · show goodKeys (run_agent s.tasks qid api_key agent)
      have hmap := map_fst_setTask_of_mem s.tasks qid r' hqidmem
      have hlen := length_setTask_of_mem s.tasks qid r' hqidmem
      show (run_agent s.tasks qid api_key agent).map Prod.fst = _
      rw [heq, hmap, hlen]
      exact hinv.keys
    · intro p hp
      have hp' := (List.Nodup.mem_erase_iff hpnodup).mp hp
      have hpne : p.1 ≠ qid := by
        intro he
        have : p = (qid, text) :=
          List.inj_on_of_nodup_map hinv.pendingNodup hp'.2 hmem he
        exact hp'.1 this
      show lookupTask (run_agent s.tasks qid api_key agent) p.1 = _
      rw [heq, lookupTask_setTask_ne _ _ _ _ hpne]
      exact hinv.pendingMem p hp'.2
    · exact hinv.pendingNodup.sublist (List.Sublist.map Prod.fst (List.erase_sublist _ _))
    · intro k r hk
      by_cases hke : k = qid
      · subst hke
        rw [heq, lookupTask_setTask_self] at hk
        rcases Option.some.injEq _ _ ▸ hk with rfl
        exact Or.inr ⟨hstat, v, hres⟩
      · rw [heq, lookupTask_setTask_ne _ _ _ _ hke] at hk
        exact hinv.statusRange k r hk
  | reset exc =>
    exact ⟨hinv.keys, hinv.pendingMem, hinv.pendingNodup, hinv.statusRange⟩

theorem reachable_inv {s : ApiState} (h : Reachable s) : Inv s := by
  induction h with
  | init ws => exact inv_init ws
  | step _ hs ih => exact inv_step ih hs

/-! ### Claims about the submission and polling endpoints -/

/-- Claim C1: create_query inserts the record with status processing and
empty result into the registry and returns that identifier with status
processing; the scheduled background task carries the same identifier.
Moreover at any reachable state, while a submitted query is still
pending (its background task has been scheduled but has not run), every
poll of its identifier returns processing, never not_found. -/
theorem claim_C1_record_before_background {s : ApiState} (text : String)
    (h : Reachable s) :
    (lookupTask (create_query s.tasks text).tasks (create_query s.tasks text).response.query_id
        = some { status := "processing", result := none }
      ∧ (create_query s.tasks text).response.status = "processing"
      ∧ (create_query s.tasks text).scheduled.1 = (create_query s.tasks text).response.query_id
      ∧ get_result (create_query s.tasks text).tasks (create_query s.tasks text).response.query_id
        = [("status", JsonVal.str "processing"), ("result", JsonVal.null)])
    ∧ ∀ qid qtext, (qid, qtext) ∈ s.pending →
        get_result s.tasks qid
          = [("status", JsonVal.str "processing"), ("result", JsonVal.null)] := by
  have hself : lookupTask (create_query s.tasks text).tasks
      (create_query s.tasks text).response.query_id
      = some { status := "processing", result := none } := by
    rw [create_query_tasks_eq, create_query_response_id]
    exact lookupTask_setTask_self _ _ _
  refine ⟨⟨hself, rfl, rfl, ?_⟩, ?_⟩
  · rw [get_result, hself]
    rfl
  · intro qid qtext hq
    have hlook := (reachable_inv h).pendingMem (qid, qtext) hq
    rw [get_result, hlook]
    rfl

theorem claim_C1_witness :
    lookupTask (create_query ([] : Registry) "list files").tasks
        (create_query ([] : Registry) "list files").response.query_id
      = some { status := "processing", result := none } :=
  (claim_C1_record_before_background "list files"
    (Reachable.init [])).1.1

/-- Claim C2: polling an identifier that is not in the registry (the
registry holds every identifier ever issued, since records are never
deleted) returns the dict with status not_found; get_result is a total
function, so no exception is raised, and the status is not the error
status. -/
theorem claim_C2_unknown_id_not_found (tasks : Registry) (qid : String)
    (h : lookupTask tasks qid = none) :
    get_result tasks qid = [("status", JsonVal.str "not_found")]
    ∧ ("not_found" : String) ≠ "error" := by
  constructor
  · rw [get_result, h]
  · decide

theorem claim_C2_witness :
    get_result ([] : Registry) "query_999" = [("status", JsonVal.str "not_found")]
    ∧ ("not_found" : String) ≠ "error" :=
  claim_C2_unknown_id_not_found [] "query_999" rfl

/-- Claim C3: along any step taken from a reachable state, a record that
is terminal (completed or error) is unchanged, and a record that does
change was processing before and is terminal afterwards; so statuses
move only from processing to completed or to error and every poll after
a record became terminal returns the same status and result. -/
theorem claim_C3_terminal_state_stable {s s' : ApiState} (hr : Reachable s)
    (hs : Step s s') (qid : String) (r r' : TaskRecord)
    (hl : lookupTask s.tasks qid = some r) (hl' : lookupTask s'.tasks qid = some r') :
    ((r.status = "completed" ∨ r.status = "error") → r' = r)
    ∧ (r' ≠ r → r.status = "processing" ∧ (r'.status = "completed" ∨ r'.status = "error")) := by
  have hinv := reachable_inv hr
  cases hs with
  | submit text =>
    have hne : qid ≠ freshQueryId s.tasks := by
      intro he
      rw [he, lookupTask_fresh_none hinv.keys] at hl
      exact Option.noConfusion hl
    have : lookupTask
        ({ tasks := (create_query s.tasks text).tasks,
           pending := s.pending ++ [(create_query s.tasks text).scheduled],
           workspace := s.workspace } : ApiState).tasks qid = lookupTask s.tasks qid := by
      show lookupTask (create_query s.tasks text).tasks qid = _
      rw [create_query_tasks_eq]
      exact lookupTask_setTask_ne _ _ _ _ hne
    rw [this, hl] at hl'
    have hrr : r' = r := (Option.some.inj hl').symm
    exact ⟨fun _ => hrr, fun hne' => absurd hrr hne'⟩
  | runPending qid0 text api_key agent hmem =>
    obtain ⟨r'', heq, hstat, v, hres⟩ := run_agent_eq_setTask s.tasks qid0 api_key agent
    by_cases hq : qid = qid0
    · subst hq
      have hproc : lookupTask s.tasks qid = some { status := "processing", result := none } :=
        hinv.pendingMem (qid, text) hmem
      have hre : r = { status := "processing", result := none } := by
        rw [hl] at hproc
        exact Option.some.inj hproc
      have hl'' : lookupTask (run_agent s.tasks qid api_key agent) qid = some r' := hl'
      rw [heq, lookupTask_setTask_self] at hl''
      have hr' : r' = r'' := (Option.some.inj hl'').symm
      constructor
      · intro hterm
        rcases hterm with hc | hc <;> rw [hre] at hc <;> exact absurd hc (by decide)
      · intro _
        refine ⟨by rw [hre], ?_⟩
        rw [hr']
        exact hstat
    · have : lookupTask (run_agent s.tasks qid0 api_key agent) qid
          = lookupTask s.tasks qid := by
        rw [heq]
        exact lookupTask_setTask_ne _ _ _ _ hq
      have hl'' : lookupTask (run_agent s.tasks qid0 api_key agent) qid = some r' := hl'
      rw [this, hl] at hl''
      have hrr : r' = r := (Option.some.inj hl'').symm
      exact ⟨fun _ => hrr, fun hne' => absurd hrr hne'⟩
  | reset exc =>
    have hl'' : lookupTask s.tasks qid = some r' := hl'
    rw [hl] at hl''
    have hrr : r' = r := (Option.some.inj hl'').symm
    exact ⟨fun _ => hrr, fun hne' => absurd hrr hne'⟩

theorem claim_C3_witness :
    (TaskRecord.mk "processing" none).status = "processing"
    ∧ ((TaskRecord.mk "completed" (some "done")).status = "completed"
      ∨ (TaskRecord.mk "completed" (some "done")).status = "error") :=
  (claim_C3_terminal_state_stable
    (Reachable.step (Reachable.init []) (Step.submit ⟨[], [], some []⟩ "deploy"))
    (Step.runPending _ "query_1" "deploy" (some "sk-key") (Except.ok "done")
      (by decide))
    "query_1" ⟨"processing", none⟩ ⟨"completed", some "done"⟩
    (by decide) (by decide)).2 (by decide)

/-- Claim C4 as stated is refuted at a concrete input: when the agent
call raises an exception with message boom, the record stored by
run_agent has result Error: boom, which is not the exception message
itself but the message behind an Error: prefix (the code writes the
f-string Error: followed by str(e)). -/
theorem claim_C4_counterexample :
    lookupTask (run_agent [("query_1", { status := "processing", result := none })]
        "query_1" (some "test-key") (Except.error "boom")) "query_1"
      = some { status := "error", result := some ("Error: " ++ "boom") }
    ∧ ("Error: " ++ "boom" : String) ≠ "boom" := by
  constructor
  · decide
  · decide

/-- Claim C4, amended: when the credential is present and the agent call
raises an exception, run_agent catches it and performs exactly one dict
assignment, setting the record of that task to status error with the
exception message, prefixed by Error: and a space, as the result; being
a total function it propagates nothing to submit or poll callers. -/
theorem claim_C4_amended_exception_to_error_record (tasks : Registry) (qid k e : String)
    (h : ¬ k = "") :
    run_agent tasks qid (some k) (Except.error e)
      = setTask tasks qid { status := "error", result := some ("Error: " ++ e) }
    ∧ lookupTask (run_agent tasks qid (some k) (Except.error e)) qid
      = some { status := "error", result := some ("Error: " ++ e) } := by
  have hm : isMissingKey (some k) = false := by
    show k.isEmpty = false
    cases hb : k.isEmpty with
    | false => rfl
    | true => exact absurd ((String.isEmpty_iff k).mp hb) h
  have hrun : run_agent tasks qid (some k) (Except.error e)
      = setTask tasks qid { status := "error", result := some ("Error: " ++ e) } := by
    unfold run_agent
    rw [hm]
    simp
  refine ⟨hrun, ?_⟩
  rw [hrun]
  exact lookupTask_setTask_self _ _ _

theorem claim_C4_witness :
    run_agent ([] : Registry) "query_1" (some "test-key") (Except.error "boom")
      = setTask [] "query_1" { status := "error", result := some ("Error: " ++ "boom") }
    ∧ lookupTask (run_agent ([] : Registry) "query_1" (some "test-key")
        (Except.error "boom")) "query_1"
      = some { status := "error", result := some ("Error: " ++ "boom") } :=
  claim_C4_amended_exception_to_error_record [] "query_1" "test-key" "boom" (by decide)

/-- Claim C5: at every reachable state, create_query returns the
identifier query_ followed by the successor of the registry size, that
identifier is not in the registry (hence was never issued, since records
are never deleted and every issued identifier stays a key), and on an
empty registry the identifier is query_1; sequential submissions
therefore never collide. -/
theorem claim_C5_identifier_fresh {s : ApiState} (text : String) (h : Reachable s) :
    (create_query s.tasks text).response.query_id
      = "query_" ++ Nat.repr (s.tasks.length + 1)
    ∧ lookupTask s.tasks (create_query s.tasks text).response.query_id = none
    ∧ (s.tasks = [] → (create_query s.tasks text).response.query_id = "query_1") := by
  refine ⟨rfl, ?_, ?_⟩
  · rw [create_query_response_id]
    exact lookupTask_fresh_none (reachable_inv h).keys
  · intro he
    rw [create_query_response_id, freshQueryId, he]
    decide

theorem claim_C5_witness :
    lookupTask ([] : Registry) (create_query ([] : Registry) "list files").response.query_id
      = none
    ∧ (create_query ([] : Registry) "list files").response.query_id = "query_1" :=
  ⟨(claim_C5_identifier_fresh "list files" (Reachable.init [])).2.1,
   (claim_C5_identifier_fresh "list files" (Reachable.init [])).2.2 rfl⟩

/-- Claim C6: when the credential is absent, run_agent stores the error
record with the literal message before the agent is ever constructed:
the resulting registry does not depend on the agent argument at all, the
message contains the words not found, and every other record of the
registry is untouched, so the failure is confined to that one task and,
run_agent being total, nothing is raised to the transport layer. -/
theorem claim_C6_missing_credential (tasks : Registry) (qid : String)
    (agent : Except String String) :
    run_agent tasks qid none agent
      = setTask tasks qid ⟨"error", some "Error: ANTHROPIC_API_KEY not found in .env file"⟩
    ∧ lookupTask (run_agent tasks qid none agent) qid
      = some ⟨"error", some "Error: ANTHROPIC_API_KEY not found in .env file"⟩
    ∧ ("Error: ANTHROPIC_API_KEY not found in .env file" : String)
      = "Error: ANTHROPIC_API_KEY " ++ "not found" ++ " in .env file"
    ∧ ∀ other, other ≠ qid →
        lookupTask (run_agent tasks qid none agent) other = lookupTask tasks other := by
  have hrun : run_agent tasks qid none agent
      = setTask tasks qid ⟨"error", some "Error: ANTHROPIC_API_KEY not found in .env file"⟩ := by
    unfold run_agent
    simp [isMissingKey]
  refine ⟨hrun, ?_, by decide, ?_⟩
  · rw [hrun]
    exact lookupTask_setTask_self _ _ _
  · intro other hne
    rw [hrun]
    exact lookupTask_setTask_ne _ _ _ _ hne

theorem claim_C6_witness :
    lookupTask (run_agent [("query_1", { status := "processing", result := none })]
        "query_1" none (Except.ok "ignored")) "query_2"
      = lookupTask [("query_1", { status := "processing", result := none })] "query_2" :=
  (claim_C6_missing_credential [("query_1", { status := "processing", result := none })]
    "query_1" (Except.ok "ignored")).2.2.2 "query_2" (by decide)

/-- Claim C7: whatever the prior state of the workspace directory
(absent, populated or already empty), a reset without exception leaves
the directory existing and empty and reports success, and a reset whose
deletion or recreation raises an exception returns the error outcome
carrying a message instead of raising (reset_workspace is total). -/
theorem claim_C7_reset_leaves_empty_workspace (ws : Option (List FsEntry)) (e : String) :
    ((reset_workspace ws none).1 = some []
      ∧ (reset_workspace ws none).2.status = "success")
    ∧ ((reset_workspace ws (some e)).2
        = { status := "error", message := "Error resetting workspace: " ++ e }) := by
  exact ⟨⟨rfl, rfl⟩, rfl⟩

/-- Claim C8: the reset_workspace endpoint never reads or writes
active_tasks or the scheduled background tasks: after a reset, whether
it succeeds or fails, the registry, the pending queue and every poll
response are exactly what they were before. -/
theorem claim_C8_reset_preserves_registry (s : ApiState) (exc : Option String) :
    (reset_endpoint s exc).1.tasks = s.tasks
    ∧ (reset_endpoint s exc).1.pending = s.pending
    ∧ ∀ qid, get_result (reset_endpoint s exc).1.tasks qid = get_result s.tasks qid := by
  exact ⟨rfl, rfl, fun _ => rfl⟩

/-- Claim C9 as stated is refuted at a concrete input: the response for
an unknown identifier is the one-key dict with status not_found and
carries no result key at all (the code returns a dict literal with only
the status key, and the extended test suite asserts exactly this body). -/
theorem claim_C9_counterexample :
    get_result ([] : Registry) "query_999" = [("status", JsonVal.str "not_found")]
    ∧ List.lookup "result" (get_result ([] : Registry) "query_999") = none := by
  exact ⟨rfl, rfl⟩

/-- Claim C9, amended: the response of GET /result for an identifier
present in the registry of a reachable state has exactly the keys status
and result, in that order, with status among processing, completed and
error and result a string or null; the response for an unknown
identifier is the dict with the single key status holding not_found. -/
theorem claim_C9_amended_response_shape {s : ApiState} (qid : String) (h : Reachable s) :
    (∀ r, lookupTask s.tasks qid = some r →
        get_result s.tasks qid
          = [("status", JsonVal.str r.status), ("result", optJson r.result)]
        ∧ (r.status = "processing" ∨ r.status = "completed" ∨ r.status = "error")
        ∧ (r.status = "processing" → optJson r.result = JsonVal.null))
    ∧ (lookupTask s.tasks qid = none →
        get_result s.tasks qid = [("status", JsonVal.str "not_found")]) := by
  constructor
  · intro r hr
    refine ⟨by rw [get_result, hr]; rfl, ?_, ?_⟩
    · rcases (reachable_inv h).statusRange qid r hr with ⟨hp, _⟩ | ⟨hterm, _⟩
      · exact Or.inl hp
      · rcases hterm with hc | hc
        · exact Or.inr (Or.inl hc)
        · exact Or.inr (Or.inr hc)
    · intro hp
      rcases (reachable_inv h).statusRange qid r hr with ⟨_, hnone⟩ | ⟨hterm, _⟩
      · rw [hnone]
        rfl
      · rcases hterm with hc | hc <;> rw [hp] at hc <;> exact absurd hc (by decide)
  · intro hr
    rw [get_result, hr]

theorem claim_C9_amended_witness :
    get_result ([] : Registry) "query_1000" = [("status", JsonVal.str "not_found")] :=
  (@claim_C9_amended_response_shape { tasks := [], pending := [], workspace := some [] }
    "query_1000" (Reachable.init [])).2 rfl

/-! ### The workspace file tree (claim C10)

To state that the tree returned by get_directory_tree is determined by
the directory contents and not by listing order, we canonicalise a
listing by recursively sorting every level and compare canonical forms;
two listings of the same on-disk directory have equal canonical forms,
and a directory never holds two entries with the same name. -/

/-- Canonical form of one entry: sort every directory level by name. -/
def canonEntry (e : FsEntry) : FsEntry :=
  match e with
  | FsEntry.file n => FsEntry.file n
  | FsEntry.dir n cs =>
      FsEntry.dir n (List.insertionSort entryLE (cs.attach.map fun c => canonEntry c.1))
termination_by sizeOf e
decreasing_by
  have h1 := List.sizeOf_lt_of_mem c.2
  simp only [FsEntry.dir.sizeOf_spec]
  omega

/-- Canonical form of a listing. -/
def canonList (l : List FsEntry) : List FsEntry :=
  List.insertionSort entryLE (l.map canonEntry)

theorem canonEntry_file (n : String) : canonEntry (FsEntry.file n) = FsEntry.file n := by
  rw [canonEntry]

theorem canonEntry_dir (n : String) (cs : List FsEntry) :
    canonEntry (FsEntry.dir n cs) = FsEntry.dir n (canonList cs) := by
  rw [canonEntry, canonList, List.attach_map_val cs canonEntry]

theorem canonEntry_name (e : FsEntry) : (canonEntry e).name = e.name := by
  cases e with
  | file n => rw [canonEntry_file]
  | dir n cs =>
    rw [canonEntry_dir]
    rfl

/-- No two entries of any directory level share a name, as is true of
every real directory listing. -/
inductive EntryNoDupDeep : FsEntry → Prop where
  | file (n : String) : EntryNoDupDeep (FsEntry.file n)
  | dir (n : String) {cs : List FsEntry} :
      (cs.map FsEntry.name).Nodup → (∀ c ∈ cs, EntryNoDupDeep c) →
      EntryNoDupDeep (FsEntry.dir n cs)

/-- Top-level listing with no duplicate names at any level. -/
def ListNoDupDeep (l : List FsEntry) : Prop :=
  (l.map FsEntry.name).Nodup ∧ ∀ c ∈ l, EntryNoDupDeep c

/-- Correspondence between one sorted entry and the node built for it:
same name, path equal to the parent relative path joined with the name,
a file becomes a childless file node and a directory becomes a directory
node whose children are the recursively built tree. -/
def NodeOfEntry (rel : String) : FsEntry → TreeNode → Prop
  | FsEntry.file n, TreeNode.fileNode n' p => n' = n ∧ p = joinPath rel n
  | FsEntry.dir n cs, TreeNode.dirNode n' p children =>
      n' = n ∧ p = joinPath rel n ∧ children = get_directory_tree cs p
  | _, _ => False

/-- Name order on built nodes. -/
def nodeLE (a b : TreeNode) : Prop := a.name ≤ b.name

theorem buildNodes_nil (rel : String) : buildNodes [] rel = [] := by
  rw [buildNodes]

theorem buildNodes_cons_file (n : String) (rest : List FsEntry) (rel : String) :
    buildNodes (FsEntry.file n :: rest) rel
      = TreeNode.fileNode n (joinPath rel n) :: buildNodes rest rel := by
  rw [buildNodes]

theorem buildNodes_cons_dir (n : String) (cs rest : List FsEntry) (rel : String) :
    buildNodes (FsEntry.dir n cs :: rest) rel
      = TreeNode.dirNode n (joinPath rel n) (get_directory_tree cs (joinPath rel n))
        :: buildNodes rest rel := by
  rw [buildNodes]

theorem get_directory_tree_eq (entries : List FsEntry) (rel : String) :
    get_directory_tree entries rel = buildNodes (List.insertionSort entryLE entries) rel := by
  rw [get_directory_tree]

theorem buildNodes_nodeOfEntry (s : List FsEntry) (rel : String) :
    List.Forall₂ (NodeOfEntry rel) s (buildNodes s rel) := by
  induction s with
  | nil =>
    rw [buildNodes_nil]
    exact List.Forall₂.nil
  | cons e rest ih =>
    cases e with
    | file n =>
      rw [buildNodes_cons_file]
      exact List.Forall₂.cons ⟨rfl, rfl⟩ ih
    | dir n cs =>
      rw [buildNodes_cons_dir]
      exact List.Forall₂.cons ⟨rfl, rfl, rfl⟩ ih

theorem buildNodes_map_name (s : List FsEntry) (rel : String) :
    (buildNodes s rel).map TreeNode.name = s.map FsEntry.name := by
  induction s with
  | nil =>
    rw [buildNodes_nil]
    rfl
  | cons e rest ih =>
    cases e with
    | file n =>
      rw [buildNodes_cons_file]
      simp [TreeNode.name, FsEntry.name, ih]
    | dir n cs =>
      rw [buildNodes_cons_dir]
      simp [TreeNode.name, FsEntry.name, ih]

theorem name_mem_of_mem_buildNodes {t : TreeNode} {s : List FsEntry} {rel : String}
    (h : t ∈ buildNodes s rel) : ∃ e ∈ s, FsEntry.name e = t.name := by
  have h1 : t.name ∈ (buildNodes s rel).map TreeNode.name := List.mem_map_of_mem _ h
  rw [buildNodes_map_name] at h1
  rcases List.mem_map.mp h1 with ⟨e, he, hne⟩
  exact ⟨e, he, hne⟩

theorem sorted_buildNodes (s : List FsEntry) (rel : String)
    (hs : List.Pairwise entryLE s) : List.Pairwise nodeLE (buildNodes s rel) := by
  induction s with
  | nil =>
    rw [buildNodes_nil]
    exact List.Pairwise.nil
  | cons e rest ih =>
    have hcons := List.pairwise_cons.mp hs
    have ht := ih hcons.2
    have hhead : ∀ p t, t ∈ buildNodes rest rel → nodeLE (TreeNode.fileNode e.name p) t := by
      intro p t htm
      obtain ⟨e', he', hname⟩ := name_mem_of_mem_buildNodes htm
      show e.name ≤ t.name
      rw [← hname]
      exact hcons.1 e' he'
    cases e with
    | file n =>
      rw [buildNodes_cons_file]
      refine List.pairwise_cons.mpr ⟨?_, ht⟩
      intro t htm
      exact hhead (joinPath rel n) t htm
    | dir n cs =>
      rw [buildNodes_cons_dir]
      refine List.pairwise_cons.mpr ⟨?_, ht⟩
      intro t htm
      exact hhead (joinPath rel n) t htm

theorem sorted_get_directory_tree (entries : List FsEntry) (rel : String) :
    List.Pairwise nodeLE (get_directory_tree entries rel) := by
  rw [get_directory_tree_eq]
  exact sorted_buildNodes _ rel (List.sorted_insertionSort entryLE entries)

/-- A node is well formed under a given parent relative path when its
path is the join of that parent path with its own name, and, for a
directory node, its children are sorted by name and recursively well
formed under its own path. -/
inductive WellFormedNode : String → TreeNode → Prop where
  | file (rel n p : String) : p = joinPath rel n → WellFormedNode rel (TreeNode.fileNode n p)
  | dir (rel n p : String) {cs : List TreeNode} : p = joinPath rel n →
      List.Pairwise nodeLE cs → (∀ c ∈ cs, WellFormedNode p c) →
      WellFormedNode rel (TreeNode.dirNode n p cs)

theorem sizeOf_list_pos (l : List FsEntry) : 0 < sizeOf l := by
  cases l with
  | nil => simp
  | cons a t => simp

theorem wellFormed_get_directory_tree_aux :
    ∀ (k : Nat) (entries : List FsEntry) (rel : String), sizeOf entries ≤ k →
      ∀ t ∈ get_directory_tree entries rel, WellFormedNode rel t := by
  intro k
  induction k with
  | zero =>
    intro entries rel hsz
    exact absurd hsz (by have := sizeOf_list_pos entries; omega)
  | succ k ih =>
    intro entries rel hsz t ht
    rw [get_directory_tree_eq] at ht
    have hall : ∀ e ∈ List.insertionSort entryLE entries, sizeOf e < sizeOf entries :=
      fun e he =>
        List.sizeOf_lt_of_mem ((List.perm_insertionSort entryLE entries).mem_iff.mp he)
    have main : ∀ (s0 : List FsEntry), (∀ e ∈ s0, sizeOf e < sizeOf entries) →
        ∀ t ∈ buildNodes s0 rel, WellFormedNode rel t := by
      intro s0
      induction s0 with
      | nil =>
        intro _ t ht0
        rw [buildNodes_nil] at ht0
        exact absurd ht0 (List.not_mem_nil t)
      | cons e rest ihs =>
        intro hb t ht0
        cases e with
        | file n =>
          rw [buildNodes_cons_file] at ht0
          rcases List.mem_cons.mp ht0 with rfl | hm
          · exact WellFormedNode.file rel n _ rfl
          · exact ihs (fun e he => hb e (List.mem_cons_of_mem _ he)) t hm
        | dir n cs =>
          rw [buildNodes_cons_dir] at ht0
          rcases List.mem_cons.mp ht0 with rfl | hm
          · refine WellFormedNode.dir rel n _ rfl (sorted_get_directory_tree cs _) ?_
            intro c hc
            have hd := hb (FsEntry.dir n cs) (List.mem_cons_self _ _)
            have hcs : sizeOf cs < sizeOf (FsEntry.dir n cs) := by
              simp
            exact ih cs (joinPath rel n) (by omega) c hc
          · exact ihs (fun e he => hb e (List.mem_cons_of_mem _ he)) t hm
    exact main (List.insertionSort entryLE entries) hall t ht

theorem wellFormed_get_directory_tree (entries : List FsEntry) (rel : String) :
    ∀ t ∈ get_directory_tree entries rel, WellFormedNode rel t :=
  wellFormed_get_directory_tree_aux (sizeOf entries) entries rel le_rfl

/-- Two listings of entries with pairwise distinct names that are
permutations of each other and both sorted by name are equal. -/
theorem sorted_perm_nodupNames_eq : ∀ {s t : List FsEntry}, s.Perm t →
    List.Pairwise entryLE s → List.Pairwise entryLE t →
    (s.map FsEntry.name).Nodup → s = t := by
  intro s
  induction s with
  | nil =>
    intro t hp _ _ _
    exact (hp.symm.eq_nil).symm
  | cons a s₁ ih =>
    intro t hp hss hst hnd
    cases t with
    | nil =>
      have := hp.eq_nil
      simp at this
    | cons b t₁ =>
      by_cases hab : a = b
      · subst hab
        have h1 : s₁ = t₁ := by
          refine ih hp.cons_inv (List.Pairwise.of_cons hss) (List.Pairwise.of_cons hst) ?_
          have hnd' : (a.name :: s₁.map FsEntry.name).Nodup := by simpa using hnd
          exact (List.nodup_cons.mp hnd').2
        rw [h1]
      · exfalso
        have hat : a ∈ b :: t₁ := hp.mem_iff.mp (List.mem_cons_self a s₁)
        have hat₁ : a ∈ t₁ := by
          rcases List.mem_cons.mp hat with he | hm
          · exact absurd he hab
          · exact hm
        have hbs : b ∈ a :: s₁ := hp.mem_iff.mpr (List.mem_cons_self b t₁)
        have hbs₁ : b ∈ s₁ := by
          rcases List.mem_cons.mp hbs with he | hm
          · exact absurd he.symm hab
          · exact hm
        have h1 : a.name ≤ b.name := (List.pairwise_cons.mp hss).1 b hbs₁
        have h2 : b.name ≤ a.name := (List.pairwise_cons.mp hst).1 a hat₁
        have hname : a.name = b.name := le_antisymm h1 h2
        have hmem : a.name ∈ s₁.map FsEntry.name := List.mem_map.mpr ⟨b, hbs₁, hname.symm⟩
        have hnd' : (a.name :: s₁.map FsEntry.name).Nodup := by simpa using hnd
        exact (List.nodup_cons.mp hnd').1 hmem

theorem map_name_map_canon (l : List FsEntry) :
    (l.map canonEntry).map FsEntry.name = l.map FsEntry.name := by
  induction l with
  | nil => rfl
  | cons e rest ih =>
    simp only [List.map_cons, ih, List.cons.injEq, and_true]
    exact canonEntry_name e

theorem pairwise_map_canon {s : List FsEntry} (h : List.Pairwise entryLE s) :
    List.Pairwise entryLE (s.map canonEntry) := by
  induction s with
  | nil => exact List.Pairwise.nil
  | cons e rest ih =>
    have hc := List.pairwise_cons.mp h
    rw [List.map_cons]
    refine List.pairwise_cons.mpr ⟨?_, ih hc.2⟩
    intro b hb
    rcases List.mem_map.mp hb with ⟨e', he', rfl⟩
    show (canonEntry e).name ≤ (canonEntry e').name
    rw [canonEntry_name, canonEntry_name]
    exact hc.1 e' he'

theorem nodup_names_insertionSort {l : List FsEntry}
    (h : (l.map FsEntry.name).Nodup) :
    ((List.insertionSort entryLE l).map FsEntry.name).Nodup :=
  (((List.perm_insertionSort entryLE l).map FsEntry.name).nodup_iff).mpr h

/-- Mapping the canonicalisation over the sorted listing gives the
canonical listing, provided names are distinct. -/
theorem map_canon_insertionSort {l : List FsEntry}
    (hnd : (l.map FsEntry.name).Nodup) :
    (List.insertionSort entryLE l).map canonEntry = canonList l := by
  apply sorted_perm_nodupNames_eq
  · exact ((List.perm_insertionSort entryLE l).map canonEntry).trans
      (List.perm_insertionSort entryLE (l.map canonEntry)).symm
  · exact pairwise_map_canon (List.sorted_insertionSort entryLE l)
  · exact List.sorted_insertionSort entryLE (l.map canonEntry)
  · rw [map_name_map_canon]
    exact nodup_names_insertionSort hnd

theorem canonEntry_eq_cases {a b : FsEntry} (h : canonEntry a = canonEntry b) :
    (∃ n, a = FsEntry.file n ∧ b = FsEntry.file n)
    ∨ (∃ n cs ds, a = FsEntry.dir n cs ∧ b = FsEntry.dir n ds
        ∧ canonList cs = canonList ds) := by
  cases a with
  | file n =>
    cases b with
    | file m =>
      rw [canonEntry_file, canonEntry_file] at h
      injection h with h1
      subst h1
      exact Or.inl ⟨n, rfl, rfl⟩
    | dir m ds =>
      rw [canonEntry_file, canonEntry_dir] at h
      exact absurd h (by simp)
  | dir n cs =>
    cases b with
    | file m =>
      rw [canonEntry_dir, canonEntry_file] at h
      exact absurd h (by simp)
    | dir m ds =>
      rw [canonEntry_dir, canonEntry_dir] at h
      injection h with h1 h2
      subst h1
      exact Or.inr ⟨n, cs, ds, rfl, rfl, h2⟩

/-- Core of the determinism argument: two sorted listings with equal
canonical images, both free of duplicate names at every level, build the
same nodes. The bound k caps the sizeOf of the first listing so that the
recursion into directory children is a plain induction on k. -/
theorem buildNodes_eq_of_map_canon :
    ∀ (k : Nat) (s s' : List FsEntry) (rel : String), sizeOf s ≤ k →
      (∀ e ∈ s, EntryNoDupDeep e) → (∀ e ∈ s', EntryNoDupDeep e) →
      s.map canonEntry = s'.map canonEntry → buildNodes s rel = buildNodes s' rel := by
  intro k
  induction k with
  | zero =>
    intro s s' rel hsz
    exact absurd hsz (by have := sizeOf_list_pos s; omega)
  | succ k ih =>
    intro s s' rel hsz hnd hnd' hmap
    cases s with
    | nil =>
      cases s' with
      | nil => rfl
      | cons b t' => simp at hmap
    | cons a t =>
      cases s' with
      | nil => simp at hmap
      | cons b t' =>
        simp only [List.map_cons, List.cons.injEq] at hmap
        obtain ⟨hab, ht⟩ := hmap
        have hsza : sizeOf t < sizeOf (a :: t) := by simp
        have hrest : buildNodes t rel = buildNodes t' rel := by
          refine ih t t' rel (by omega) ?_ ?_ ht
          · exact fun e he => hnd e (List.mem_cons_of_mem _ he)
          · exact fun e he => hnd' e (List.mem_cons_of_mem _ he)
        rcases canonEntry_eq_cases hab with ⟨n, rfl, rfl⟩ | ⟨n, cs, ds, rfl, rfl, hcl⟩
        · rw [buildNodes_cons_file, buildNodes_cons_file, hrest]
        · rw [buildNodes_cons_dir, buildNodes_cons_dir, hrest]
          have hndc := hnd _ (List.mem_cons_self (FsEntry.dir n cs) t)
          have hndd := hnd' _ (List.mem_cons_self (FsEntry.dir n ds) t')
          cases hndc with
          | dir _ hnames hdeep =>
            cases hndd with
            | dir _ hnames' hdeep' =>
              have hchild : get_directory_tree cs (joinPath rel n)
                  = get_directory_tree ds (joinPath rel n) := by
                rw [get_directory_tree_eq, get_directory_tree_eq]
                refine ih _ _ _ ?_ ?_ ?_ ?_
                · rw [sizeOf_insertionSort]
                  have h1 : sizeOf cs < sizeOf (FsEntry.dir n cs) := by simp
                  have h2 : sizeOf (FsEntry.dir n cs) < sizeOf (FsEntry.dir n cs :: t) := by
                    simp only [List.cons.sizeOf_spec]
                    omega
                  omega
                · intro e he
                  exact hdeep e ((List.perm_insertionSort entryLE cs).mem_iff.mp he)
                · intro e he
                  exact hdeep' e ((List.perm_insertionSort entryLE ds).mem_iff.mp he)
                · rw [map_canon_insertionSort hnames, map_canon_insertionSort hnames', hcl]
              rw [hchild]

/-- The tree built from a listing depends only on its canonical form. -/
theorem tree_eq_of_canonList {entries entries' : List FsEntry} (rel : String)
    (h : ListNoDupDeep entries) (h' : ListNoDupDeep entries')
    (hc : canonList entries = canonList entries') :
    get_directory_tree entries rel = get_directory_tree entries' rel := by
  rw [get_directory_tree_eq, get_directory_tree_eq]
  refine buildNodes_eq_of_map_canon (sizeOf (List.insertionSort entryLE entries))
    _ _ rel le_rfl ?_ ?_ ?_
  · intro e he
    exact h.2 e ((List.perm_insertionSort entryLE entries).mem_iff.mp he)
  · intro e he
    exact h'.2 e ((List.perm_insertionSort entryLE entries').mem_iff.mp he)
  · rw [map_canon_insertionSort h.1, map_canon_insertionSort h'.1, hc]

/-- Listing the same directory in a different order gives the same
canonical form. -/
theorem canonList_eq_of_perm {l l' : List FsEntry} (hp : l.Perm l')
    (hnd : (l.map FsEntry.name).Nodup) : canonList l = canonList l' := by
  apply sorted_perm_nodupNames_eq
  · exact (List.perm_insertionSort entryLE (l.map canonEntry)).trans
      (((hp.map canonEntry)).trans
        (List.perm_insertionSort entryLE (l'.map canonEntry)).symm)
  · exact List.sorted_insertionSort entryLE (l.map canonEntry)
  · exact List.sorted_insertionSort entryLE (l'.map canonEntry)
  · have h1 : ((l.map canonEntry).map FsEntry.name).Nodup := by
      rw [map_name_map_canon]
      exact hnd
    exact nodup_names_insertionSort h1

theorem listNoDupDeep_of_perm {l l' : List FsEntry} (hp : l.Perm l')
    (h : ListNoDupDeep l) : ListNoDupDeep l' := by
  refine ⟨((hp.map FsEntry.name).nodup_iff).mp h.1, ?_⟩
  intro c hc
  exact h.2 c (hp.mem_iff.mpr hc)

/-- Claim C10: the file tree built by get_directory_tree is
deterministic in the directory contents: the output nodes correspond
one to one, in order, with the name-sorted entries (so at every level
entries appear sorted by name), each node path is its parent relative
path joined with its name (just the name at the top level, recursively
inside directory nodes, as stated by WellFormedNode), directory entries
produce nodes carrying a recursively built children list and file
entries produce nodes whose dict has no children key; listings with the
same contents (equal canonical forms, and in particular any reordering
of the same listing) produce identical trees. -/
theorem claim_C10_workspace_tree_deterministic
    (entries entries' entriesPerm : List FsEntry) (rel : String)
    (hnd : ListNoDupDeep entries) (hnd' : ListNoDupDeep entries')
    (hcanon : canonList entries = canonList entries')
    (hperm : entries.Perm entriesPerm) :
    List.Forall₂ (NodeOfEntry rel) (List.insertionSort entryLE entries)
        (get_directory_tree entries rel)
    ∧ List.Pairwise nodeLE (get_directory_tree entries rel)
    ∧ (∀ t ∈ get_directory_tree entries rel, WellFormedNode rel t)
    ∧ (∀ t ∈ get_directory_tree entries rel,
        (∃ n p, t = TreeNode.fileNode n p ∧ TreeNode.jsonKeys t = ["name", "path", "type"])
        ∨ (∃ n p cs, t = TreeNode.dirNode n p cs
            ∧ TreeNode.jsonKeys t = ["name", "path", "type", "children"]))
    ∧ get_directory_tree entries rel = get_directory_tree entries' rel
    ∧ get_directory_tree entries rel = get_directory_tree entriesPerm rel := by
  refine ⟨?_, ?_, ?_, ?_, ?_, ?_⟩
  · rw [get_directory_tree_eq]
    exact buildNodes_nodeOfEntry _ rel
  · exact sorted_get_directory_tree entries rel
  · exact wellFormed_get_directory_tree entries rel
  · intro t _
    cases t with
    | fileNode n p => exact Or.inl ⟨n, p, rfl, rfl⟩
    | dirNode n p cs => exact Or.inr ⟨n, p, cs, rfl, rfl⟩
  · exact tree_eq_of_canonList rel hnd hnd' hcanon
  · exact tree_eq_of_canonList rel hnd (listNoDupDeep_of_perm hperm hnd)
      (canonList_eq_of_perm hperm hnd.1)

theorem claim_C10_witness :
    get_directory_tree [FsEntry.file "b", FsEntry.file "a"] ""
      = get_directory_tree [FsEntry.file "a", FsEntry.file "b"] "" :=
  (claim_C10_workspace_tree_deterministic
    [FsEntry.file "b", FsEntry.file "a"] [FsEntry.file "b", FsEntry.file "a"]
    [FsEntry.file "a", FsEntry.file "b"] ""
    ⟨by decide, by
      intro c hc
      rcases List.mem_cons.mp hc with rfl | hc2
      · exact EntryNoDupDeep.file "b"
      · rcases List.mem_singleton.mp hc2 with rfl
        exact EntryNoDupDeep.file "a"⟩
    ⟨by decide, by
      intro c hc
      rcases List.mem_cons.mp hc with rfl | hc2
      · exact EntryNoDupDeep.file "b"
      · rcases List.mem_singleton.mp hc2 with rfl
        exact EntryNoDupDeep.file "a"⟩
    rfl
    (List.Perm.swap (FsEntry.file "a") (FsEntry.file "b") [])).2.2.2.2.2

end Api
